import Mathlib

/-!
Shallow embedding of the PKU-Schedule-Planner core: the schedule data model and
meeting-line grammar parsers of `pku_course_parser.py`, and the occupancy,
conflict-detection and credit-gate logic of `course_ui.py`, together with
theorems settling the specification claims about them.

Python strings are modelled as Lean `String` (lists of characters), Python
ints as `Int`/`Nat`, Python floats (course credits) as exact rationals `ℚ`,
dictionaries as association lists preserving insertion order, and sets as
duplicate-free lists.
-/

namespace PKU

/-! ### Character and string helpers (Python str primitives) -/

/-- Python `str` whitespace characters (the ASCII forms, which are the only
ones occurring in this corpus); also the characters matched by regex `\s`. -/
def isPyWS (c : Char) : Bool :=
  c == ' ' || c == '\t' || c == '\n' || c == '\r' || c == '\x0b' || c == '\x0c'

/-- Left-strip whitespace from a character list. -/
def lstripChars (cs : List Char) : List Char := cs.dropWhile isPyWS

/-- Right-strip whitespace from a character list. -/
def rstripChars (cs : List Char) : List Char := (cs.reverse.dropWhile isPyWS).reverse

/-- Python `str.strip()`. -/
def pyStrip (s : String) : String := ⟨lstripChars (rstripChars s.data)⟩

/-- Python `str.startswith`, over the underlying character lists. -/
def listStarts : List Char → List Char → Bool
  | [], _ => true
  | _ :: _, [] => false
  | p :: ps, c :: cs => p == c && listStarts ps cs

/-- Python `str.startswith` on strings. -/
def strStarts (p s : String) : Bool := listStarts p.data s.data

/-- Convert a list of decimal digit characters to a natural number
(Python `int(...)` on a digit string). -/
def digitsToNat (ds : List Char) : Nat :=
  ds.foldl (fun acc c => acc * 10 + (c.toNat - '0'.toNat)) 0

/-! ### Data model (`pku_course_parser.py`) -/

/-- Embeds `WeekPattern`: which calendar weeks within a meeting's range host a session. -/
inductive WeekPattern
  | EVERY
  | ODD
  | EVEN
deriving DecidableEq, Repr

/-- Embeds `WEEKDAY_MAP`: Chinese weekday character to 1..7 (`dict.get` semantics). -/
def weekdayMap (c : Char) : Option Int :=
  if c = '一' then some 1
  else if c = '二' then some 2
  else if c = '三' then some 3
  else if c = '四' then some 4
  else if c = '五' then some 5
  else if c = '六' then some 6
  else if c = '日' then some 7
  else if c = '天' then some 7
  else none

/-- Embeds `Meeting`: one contiguous weekly time block. -/
structure Meeting where
  start_week : Int
  end_week : Int
  pattern : WeekPattern
  weekday : Int
  start_period : Int
  end_period : Int
  room : String := ""
  raw : String := ""
deriving DecidableEq, Repr

/-- Embeds `Meeting.occurs_on_week`. -/
def Meeting.occursOnWeek (m : Meeting) (week : Int) : Bool :=
  if week < m.start_week ∨ week > m.end_week then false
  else if m.pattern = WeekPattern.EVERY then true
  else if m.pattern = WeekPattern.ODD then week % 2 == 1
  else if m.pattern = WeekPattern.EVEN then week % 2 == 0
  else false

/-- Embeds `Meeting.occurs_on`. -/
def Meeting.occursOn (m : Meeting) (week weekday period : Int) : Bool :=
  m.occursOnWeek week && m.weekday == weekday &&
    (m.start_period ≤ period && period ≤ m.end_period)

/-- Embeds `CourseKey`: the (course name, course code, room, class number) identity tuple. -/
structure CourseKey where
  course_name : String
  course_code : String
  room : String
  class_no : String
deriving DecidableEq, Repr

/-- Embeds `Course`: one parsed input row (never dropped). -/
structure Course where
  uid : String × String
  key : CourseKey
  course_name : String
  course_code : String
  teacher : String
  department : String
  credits : ℚ
  class_no : String := ""
  category : String := ""
  grade : String := ""
  meetings : List Meeting := []
  raw : List (String × String) := []
  parse_warnings : List String := []

/-- Embeds `ParseResult`: the aggregate outcome of loading a batch of rows. -/
structure ParseResult where
  courses : List Course
  by_key : List (CourseKey × List Course)
  by_uid : List ((String × String) × Course)
  global_warnings : List String := []
  empty_room_rows : List String := []
  meeting_parse_warnings : List String := []
  key_collisions : List String := []
  total_rows : Nat := 0

/-! ### Normalization helpers (`pku_course_parser.py`) -/

/-- Embeds `EXAM_PREFIXES = ("考试时间", "考试方式")`. -/
def examHeads : List String := ["考试时间", "考试方式"]

/-- Embeds `s.replace("\r\n", "\n").replace("\r", "\n")`. -/
def replaceCR : List Char → List Char
  | [] => []
  | '\r' :: '\n' :: rest => '\n' :: replaceCR rest
  | '\r' :: rest => '\n' :: replaceCR rest
  | c :: rest => c :: replaceCR rest

/-- Embeds `s.replace("；", ";").replace("，", ",")`. -/
def mapPunct (cs : List Char) : List Char :=
  cs.map (fun c => if c = '；' then ';' else if c = '，' then ',' else c)

/-- A character matched by the regex class `[ \t]`. -/
def isBlank (c : Char) : Bool := c == ' ' || c == '\t'

/-- Embeds `re.sub(r"[ \t]+", " ", s)`: collapse each run of blanks to one space. -/
def collapseBlanks : List Char → List Char
  | [] => []
  | [c] => if isBlank c then [' '] else [c]
  | c1 :: c2 :: cs =>
    if isBlank c1 && isBlank c2 then collapseBlanks (c2 :: cs)
    else (if isBlank c1 then ' ' else c1) :: collapseBlanks (c2 :: cs)

/-- Embeds `re.sub(r"\n{2,}", "\n", s)`: collapse each run of 2+ newlines to one. -/
def collapseLF : List Char → List Char
  | [] => []
  | '\n' :: '\n' :: cs => collapseLF ('\n' :: cs)
  | c :: cs => c :: collapseLF cs

/-- Embeds `_normalize_spaces`. -/
def normalizeSpaces (s : String) : String :=
  pyStrip ⟨collapseLF (collapseBlanks (mapPunct (replaceCR s.data)))⟩

/-- Split a character list at each `'\n'` (Python `str.split("\n")`). -/
def splitLinesAux : List Char → List Char → List (List Char)
  | [], cur => [cur.reverse]
  | '\n' :: rest, cur => cur.reverse :: splitLinesAux rest []
  | c :: rest, cur => splitLinesAux rest (c :: cur)

/-- Embeds `_split_info_lines`: normalize, split into lines, strip each, drop empties. -/
def splitInfoLines (info : String) : List String :=
  let n := normalizeSpaces info
  if n = "" then []
  else ((splitLinesAux n.data []).map (fun l => pyStrip ⟨l⟩)).filter (· ≠ "")

/-- Embeds `_is_exam_line`: the stripped line starts with an exam-schedule head,
with a full-width colon, a half-width colon, or nothing after it. -/
def isExamLine (line : String) : Bool :=
  let l := pyStrip line
  examHeads.any fun p =>
    strStarts (p ++ "：") l || strStarts (p ++ ":") l || strStarts p l

/-- Embeds `_pattern_from_text`. -/
def patternFromText (pat : Option String) : WeekPattern :=
  if pat = some "单周" then WeekPattern.ODD
  else if pat = some "双周" then WeekPattern.EVEN
  else WeekPattern.EVERY

/-- The single anchored substitution `re.sub(r"^\s*备注[:：]\s*", "", s)`. -/
def dropRemark (cs : List Char) : List Char :=
  match cs.dropWhile isPyWS with
  | '备' :: '注' :: c :: rest =>
    if c = ':' || c = '：' then rest.dropWhile isPyWS else cs
  | _ => cs

/-- Embeds `_strip_wrapping_parens`: strip, peel leading `（(` and trailing `）)`,
drop a leading `备注：` marker, strip again. -/
def stripWrappingParens (line : String) : String :=
  let cs := (pyStrip line).data
  let cs := cs.dropWhile (fun c => c == '（' || c == '(')
  let cs := (cs.reverse.dropWhile (fun c => c == '）' || c == ')')).reverse
  pyStrip ⟨dropRemark cs⟩

/-- Embeds `re.sub(r"(机房|内)$", "", room)`: remove one trailing `机房` or `内`. -/
def dropRoomTail (cs : List Char) : List Char :=
  match cs.reverse with
  | '房' :: '机' :: rest => rest.reverse
  | '内' :: rest => rest.reverse
  | _ => cs

/-- Embeds `_normalize_room`: strip, drop a trailing `机房`/`内` qualifier, strip,
then delete every whitespace character (`re.sub(r"\s+", "", room)`). -/
def normalizeRoom (room : String) : String :=
  let r := pyStrip room
  if r = "" then ""
  else ⟨(pyStrip ⟨dropRoomTail r.data⟩).data.filter (fun c => !(isPyWS c))⟩

/-! ### Regex embeddings: `MEETING_PERIOD_RE` and `MEETING_CLOCK_RE`

The two compiled regexes are embedded as deterministic character-list
parsers. Each step below mirrors one token of the (verbose-mode) pattern;
where the regex could backtrack, the surrounding tokens make the greedy
deterministic choice equivalent (digits are never followed by tokens that
can start with a digit, and the lazy room captures amount to trimming). -/

/-- Skip `\s*`. -/
def skipWS (cs : List Char) : List Char := cs.dropWhile isPyWS

/-- Require `\s+` then skip the rest of the run. -/
def readWS1 : List Char → Option (List Char)
  | c :: cs => if isPyWS c then some (skipWS cs) else none
  | [] => none

/-- Consume one expected character. -/
def expectChar (c : Char) : List Char → Option (List Char)
  | d :: cs => if d = c then some cs else none
  | [] => none

/-- Embeds `\d+` followed by `int(...)`. -/
def readNat (cs : List Char) : Option (Nat × List Char) :=
  let ds := cs.takeWhile Char.isDigit
  if ds.isEmpty then none
  else some (digitsToNat ds, cs.dropWhile Char.isDigit)

/-- Embeds `\d{1,2}` (greedy; equivalent to the regex here because no continuation
after an hour/minute capture can start with a digit). -/
def read12 : List Char → Option (Nat × List Char)
  | c1 :: rest =>
    if c1.isDigit then
      match rest with
      | c2 :: rest2 =>
        if c2.isDigit then some (digitsToNat [c1, c2], rest2)
        else some (digitsToNat [c1], rest)
      | [] => some (digitsToNat [c1], [])
    else none
  | [] => none

/-- Embeds `(?:(?P<pat>每周|单周|双周)\s*)?`. -/
def readPat (cs : List Char) : Option String × List Char :=
  if listStarts "每周".data cs then (some "每周", skipWS (cs.drop 2))
  else if listStarts "单周".data cs then (some "单周", skipWS (cs.drop 2))
  else if listStarts "双周".data cs then (some "双周", skipWS (cs.drop 2))
  else (none, cs)

/-- The regex class `[一二三四五六日天]`. -/
def isWeekdayChar (c : Char) : Bool :=
  c == '一' || c == '二' || c == '三' || c == '四' || c == '五' ||
    c == '六' || c == '日' || c == '天'

/-- Captures of `MEETING_PERIOD_RE` (digit groups already through `int`). -/
structure PeriodCaps where
  ws : Nat
  we : Nat
  pat : Option String
  wd : Char
  ps : Nat
  pe : Nat
  room : Option String
deriving DecidableEq, Repr

/-- The room tail `(?P<room>[^（(]+?)?\s*(?:[（(].*)?$` of the period grammar:
the text before the first `（`/`(`, right-trimmed; empty means no capture. -/
def periodRoomTail (cs : List Char) : Option String :=
  let before := cs.takeWhile (fun c => !(c == '（' || c == '('))
  let r := rstripChars before
  if r.isEmpty then none else some ⟨r⟩

/-- Embeds `MEETING_PERIOD_RE.match`. -/
def periodMatch (s : String) : Option PeriodCaps := do
  let cs := skipWS s.data
  let (ws, cs) ← readNat cs
  let cs ← expectChar '~' (skipWS cs)
  let (we, cs) ← readNat (skipWS cs)
  let cs ← expectChar '周' (skipWS cs)
  let cs ← readWS1 cs
  let (pat, cs) := readPat cs
  let cs ← expectChar '周' cs
  match cs with
  | [] => none
  | wd :: cs =>
    if isWeekdayChar wd then do
      let cs := skipWS cs
      let (ps, cs) ← readNat cs
      let cs ← expectChar '~' (skipWS cs)
      let (pe, cs) ← readNat (skipWS cs)
      let cs ← expectChar '节' (skipWS cs)
      some ⟨ws, we, pat, wd, ps, pe, periodRoomTail (skipWS cs)⟩
    else none

/-- Captures of `MEETING_CLOCK_RE`. -/
structure ClockCaps where
  ws : Nat
  we : Nat
  wd : Char
  tod : Option String
  h1 : Nat
  m1 : Option Nat
  half1 : Bool
  h2 : Nat
  m2 : Option Nat
  half2 : Bool
  room : Option String
deriving DecidableEq, Repr

/-- The regex class `[-~～]`. -/
def isDashChar (c : Char) : Bool := c == '-' || c == '~' || c == '～'

/-- Consume one `[-~～]`. -/
def expectDash : List Char → Option (List Char)
  | c :: cs => if isDashChar c then some cs else none
  | [] => none

/-- Embeds `(?P<tod>上午|下午|晚上|晚)?` (alternatives tried in source order). -/
def readTod (cs : List Char) : Option String × List Char :=
  if listStarts "上午".data cs then (some "上午", cs.drop 2)
  else if listStarts "下午".data cs then (some "下午", cs.drop 2)
  else if listStarts "晚上".data cs then (some "晚上", cs.drop 2)
  else if listStarts "晚".data cs then (some "晚", cs.drop 1)
  else (none, cs)

/-- Embeds `\s*(?:[:：](?P<m>\d{1,2}))?\s*点?(?P<half>半)?`: the optional minute,
optional `点` and optional `半` tokens after an hour capture. A colon not
followed by digits fails the whole match, as it does under backtracking. -/
def readMinHalf (cs : List Char) : Option (Option Nat × Bool × List Char) := do
  let cs := skipWS cs
  let (m, cs) ←
    match cs with
    | ':' :: rest => (read12 rest).map (fun (v, r) => (some v, r))
    | '：' :: rest => (read12 rest).map (fun (v, r) => (some v, r))
    | _ => some ((none : Option Nat), cs)
  let cs := skipWS cs
  let cs := match cs with | '点' :: rest => rest | _ => cs
  match cs with
  | '半' :: rest => some (m, true, rest)
  | _ => some (m, false, cs)

/-- The tail `\s*(?:[,，]\s*(?P<room>.+?))?\s*$` of the clock grammar:
either whitespace to the end (no room), or a comma followed by a
non-blank room (trimmed); a comma followed by only whitespace fails. -/
def clockRoomTail (cs : List Char) : Option (Option String) :=
  match skipWS cs with
  | [] => some none
  | c :: rest =>
    if c == ',' || c == '，' then
      let r := rstripChars (skipWS rest)
      if r.isEmpty then none else some (some ⟨r⟩)
    else none

/-- Embeds `MEETING_CLOCK_RE.match`. -/
def clockMatch (s : String) : Option ClockCaps := do
  let cs := skipWS s.data
  let cs := match cs with | '第' :: rest => rest | _ => cs
  let (ws, cs) ← readNat (skipWS cs)
  let cs ← expectDash (skipWS cs)
  let (we, cs) ← readNat (skipWS cs)
  let cs ← expectChar '周' (skipWS cs)
  let cs ← expectChar '周' (skipWS cs)
  match cs with
  | [] => none
  | wd :: cs =>
    if isWeekdayChar wd then do
      let (tod, cs) := readTod (skipWS cs)
      let (h1, cs) ← read12 (skipWS cs)
      let (m1, half1, cs) ← readMinHalf cs
      let cs ← expectDash (skipWS cs)
      let (h2, cs) ← read12 (skipWS cs)
      let (m2, half2, cs) ← readMinHalf cs
      let room ← clockRoomTail cs
      some ⟨ws, we, wd, tod, h1, m1, half1, h2, m2, half2, room⟩
    else none

/-! ### Clock-to-period mapping -/

/-- Embeds `CLOCK_SLOT_MAP`: (label, anchor start 13:00/18:00 in minutes, anchor end
16:30/21:30 in minutes, period range). -/
def clockSlotMap : List (String × Int × Int × (Int × Int)) :=
  [("下午", 780, 990, (5, 8)),
   ("晚", 1080, 1290, (9, 12)),
   ("晚上", 1080, 1290, (9, 12))]

/-- Embeds `_parse_clock_parts`: hour/minute to minutes-since-midnight, a trailing
`半` forcing the minute component to 30. -/
def parseClockParts (h : Nat) (m : Option Nat) (half : Bool) : Int :=
  let mm : Int := match m with | some v => (v : Int) | none => 0
  let mm := if half then 30 else mm
  (h : Int) * 60 + mm

/-- Embeds `_clock_to_periods` (the two self-assignments of `tod_norm` in the source
are the identity and are omitted). -/
def clockToPeriods (tod : String) (startMin endMin : Int) : Option (Int × Int) :=
  let todNorm := pyStrip tod
  match clockSlotMap.find? (fun e =>
      (todNorm == "" || todNorm == e.1) &&
      decide ((startMin - e.2.1).natAbs ≤ 20) &&
      decide ((endMin - e.2.2.1).natAbs ≤ 20)) with
  | some e => some e.2.2.2
  | none =>
  match clockSlotMap.find? (fun e =>
      (todNorm == "" || todNorm == e.1) &&
      decide (startMin ≥ e.2.1 - 20) &&
      decide (endMin ≤ e.2.2.1 + 20)) with
  | some e => some e.2.2.2
  | none =>
    if 720 ≤ startMin ∧ startMin ≤ 900 ∧ endMin ≥ 960 then some (5, 8)
    else if startMin ≥ 1020 then some (9, 12)
    else none

/-! ### Room extraction fallback (`extract_room_from_any`) -/

/-- Drop up to and including the first `）`/`)`, if any. -/
def splitCloser : List Char → Option (List Char)
  | [] => none
  | c :: rest => if c == '）' || c == ')' then some rest else splitCloser rest

/-- Embeds `re.sub(r"[（(].*?[）)]", "", s)` with fuel (the fuel, initially the list
length, bounds the jumps past closed paren segments; it never runs out). -/
def removeParenSegsFuel : Nat → List Char → List Char
  | 0, cs => cs
  | _ + 1, [] => []
  | n + 1, c :: rest =>
    if c == '（' || c == '(' then
      match splitCloser rest with
      | some rest2 => removeParenSegsFuel n rest2
      | none => c :: removeParenSegsFuel n rest
    else c :: removeParenSegsFuel n rest

/-- Delete every complete (lazily matched) paren segment. -/
def removeParenSegs (cs : List Char) : List Char :=
  removeParenSegsFuel cs.length cs

/-- Embeds `tail.split(",")[-1]`: the segment after the last comma. -/
def lastSegAux : List Char → List Char → List Char
  | [], cur => cur.reverse
  | ',' :: rest, _ => lastSegAux rest []
  | c :: rest, cur => lastSegAux rest (c :: cur)

/-- The five short building-name abbreviations of the `m2` fallback regex. -/
def isBldgHead (c1 c2 : Char) : Bool :=
  (c1 == '理' || c1 == '一' || c1 == '二' || c1 == '三' || c1 == '四') && c2 == '教'

/-- Try `(理教|一教|二教|三教|四教)\s*([0-9]{3,4})\s*$` at this position:
building head, optional blanks, a full digit run of length 3 or 4, then
whitespace to the end (greedy `{3,4}` cannot split a longer digit run here). -/
def matchBldgAt (cs : List Char) : Option String :=
  match cs with
  | c1 :: c2 :: rest =>
    if isBldgHead c1 c2 then
      let rest := rest.dropWhile isPyWS
      let ds := rest.takeWhile Char.isDigit
      let rest2 := rest.dropWhile Char.isDigit
      if (ds.length = 3 ∨ ds.length = 4) ∧ rest2.all isPyWS then
        some ⟨c1 :: c2 :: ds⟩
      else none
    else none
  | _ => none

/-- Embeds `re.search` scan for the `m2` fallback pattern. -/
def searchBldg : List Char → Option String
  | [] => none
  | c :: rest =>
    match matchBldgAt (c :: rest) with
    | some r => some r
    | none => searchBldg rest

/-- The regex class `[一二三四五六七八九十0-9]` of the `m3` fallback. -/
def isSciChar (c : Char) : Bool :=
  c.isDigit || c == '一' || c == '二' || c == '三' || c == '四' || c == '五' ||
    c == '六' || c == '七' || c == '八' || c == '九' || c == '十'

/-- Try `(理科\s*[一二三四五六七八九十0-9]+号楼)\s*([0-9]{3,4})` at this
position. The whitespace matched inside group 1 is not reproduced in the
returned text; `_normalize_room` deletes all whitespace anyway, so the
composed result is unchanged. -/
def matchSciAt (cs : List Char) : Option String :=
  match cs with
  | '理' :: '科' :: rest =>
    let rest := rest.dropWhile isPyWS
    let run := rest.takeWhile isSciChar
    let rest2 := rest.dropWhile isSciChar
    if run.isEmpty then none
    else
      match rest2 with
      | '号' :: '楼' :: rest3 =>
        let rest3 := rest3.dropWhile isPyWS
        let ds := rest3.takeWhile Char.isDigit
        if ds.length ≥ 3 then
          some ⟨'理' :: '科' :: (run ++ '号' :: '楼' :: ds.take 4)⟩
        else none
      | _ => none
  | _ => none

/-- Embeds `re.search` scan for the `m3` fallback pattern. -/
def searchSci : List Char → Option String
  | [] => none
  | c :: rest =>
    match matchSciAt (c :: rest) with
    | some r => some r
    | none => searchSci rest

/-- Embeds `extract_room_from_any`. -/
def extractRoomFromAny (line : String) : String :=
  let s := normalizeSpaces line
  let s2 := stripWrappingParens s
  match periodMatch s with
  | some caps => normalizeRoom (pyStrip (caps.room.getD ""))
  | none =>
  match clockMatch s2 with
  | some caps => normalizeRoom (pyStrip (caps.room.getD ""))
  | none =>
    let tail := pyStrip ⟨removeParenSegs s.data⟩
    let tail := pyStrip ⟨lastSegAux tail.data []⟩
    match searchBldg tail.data with
    | some r => normalizeRoom r
    | none =>
    match searchSci tail.data with
    | some r => normalizeRoom r
    | none => ""

/-! ### Meeting parsing (`parse_meeting_line`) -/

/-- The period-grammar arm of `parse_meeting_line` applied to a match. -/
def buildPeriodMeeting (caps : PeriodCaps) (raw : String) : Option Meeting :=
  match weekdayMap caps.wd with
  | none => none
  | some wd =>
    let ps := if caps.ps > caps.pe then caps.pe else caps.ps
    let pe := if caps.ps > caps.pe then caps.ps else caps.pe
    some { start_week := (caps.ws : Int), end_week := (caps.we : Int),
           pattern := patternFromText caps.pat, weekday := wd,
           start_period := (ps : Int), end_period := (pe : Int),
           room := normalizeRoom (pyStrip (caps.room.getD "")), raw := raw }

/-- The clock-grammar arm of `parse_meeting_line` applied to a match. The
source's if/elif chain normalizing `tod` is the identity and is omitted. -/
def buildClockMeeting (caps : ClockCaps) (raw : String) : Option Meeting :=
  match weekdayMap caps.wd with
  | none => none
  | some wd =>
    let tod := pyStrip (caps.tod.getD "")
    let startMin := parseClockParts caps.h1 caps.m1 caps.half1
    let endMin := parseClockParts caps.h2 caps.m2 caps.half2
    let isPM := tod = "下午" ∨ tod = "晚" ∨ tod = "晚上"
    let startMin := if isPM ∧ startMin < 720 then startMin + 720 else startMin
    let endMin := if isPM ∧ endMin < 720 then endMin + 720 else endMin
    match clockToPeriods tod startMin endMin with
    | none => none
    | some (p1, p2) =>
      some { start_week := (caps.ws : Int), end_week := (caps.we : Int),
             pattern := WeekPattern.EVERY, weekday := wd,
             start_period := p1, end_period := p2,
             room := normalizeRoom (pyStrip (caps.room.getD "")), raw := raw }

/-- Embeds `parse_meeting_line`. -/
def parseMeetingLine (line : String) : Option Meeting :=
  let raw := pyStrip line
  if raw = "" ∨ isExamLine raw then none
  else
    let s := normalizeSpaces raw
    match periodMatch s with
    | some caps => buildPeriodMeeting caps raw
    | none =>
      match clockMatch (stripWrappingParens s) with
      | some caps => buildClockMeeting caps raw
      | none => none

/-- The bounds the specification asserts for every parsed Meeting
(translated from the spec's data-model section, for comparison with the
code's actual behaviour): weekday in 1..7, `start_week ≤ end_week`, and
`1 ≤ start_period ≤ end_period ≤ 12`. -/
def specMeetingBounds (m : Meeting) : Bool :=
  decide (1 ≤ m.weekday ∧ m.weekday ≤ 7 ∧ m.start_week ≤ m.end_week ∧
    1 ≤ m.start_period ∧ m.start_period ≤ m.end_period ∧ m.end_period ≤ 12)

/-! ### Course row parsing (`parse_course_row`) -/

/-- One raw input row: a string-keyed field mapping. -/
def Row := List (String × String)

/-- Embeds `row.get(k, "")`. -/
def rowGet (row : Row) (k : String) : String :=
  match row with
  | [] => ""
  | (k2, v) :: rest => if k2 = k then v else rowGet rest k

/-- A simple decimal literal `[+-]?digits[.digits]` as an exact rational.
Embeds Python `float(...)` for the numeral shapes credit fields take
(`float` also accepts exponents and inf/nan, which never occur here). -/
def parseDecimal (s : String) : Option ℚ :=
  let cs := s.data
  let (neg, cs) :=
    match cs with
    | '-' :: r => (true, r)
    | '+' :: r => (false, r)
    | _ => (false, cs)
  let ip := cs.takeWhile Char.isDigit
  let rest := cs.dropWhile Char.isDigit
  let finish : ℚ → Option ℚ := fun q => some (if neg then -q else q)
  match rest with
  | [] => if ip.isEmpty then none else finish (digitsToNat ip : ℚ)
  | '.' :: fr =>
    let fp := fr.takeWhile Char.isDigit
    let rest2 := fr.dropWhile Char.isDigit
    if rest2.isEmpty && !(ip.isEmpty && fp.isEmpty) then
      finish ((digitsToNat ip : ℚ) + (digitsToNat fp : ℚ) / ((10 : ℚ) ^ fp.length))
    else none
  | _ => none

/-- The `credits` coercion: `float(raw)` if non-empty else `0.0`, with a
`ValueError` falling back to `0.0`. -/
def parseCredits (s : String) : ℚ :=
  match parseDecimal s with
  | some q => q
  | none => 0

/-- The running accumulators of the line loop in `parse_course_row`. -/
structure LineAcc where
  meetings : List Meeting
  warnings : List String
  rooms : List String
deriving Repr

/-- One iteration of the line loop in `parse_course_row`. -/
def processLine (acc : LineAcc) (ln : String) : LineAcc :=
  if isExamLine ln then acc
  else
    match parseMeetingLine ln with
    | none =>
      let acc := { acc with warnings := acc.warnings ++ ["未能解析上课行：" ++ ln] }
      let rm := extractRoomFromAny ln
      if rm = "" then acc else { acc with rooms := acc.rooms ++ [rm] }
    | some mt =>
      let acc := { acc with meetings := acc.meetings ++ [mt] }
      if mt.room ≠ "" then { acc with rooms := acc.rooms ++ [mt.room] }
      else
        let rm := extractRoomFromAny ln
        if rm = "" then acc else { acc with rooms := acc.rooms ++ [rm] }

/-- The full line loop of `parse_course_row`. -/
def collectLines (lines : List String) : LineAcc :=
  lines.foldl processLine ⟨[], [], []⟩

/-- The line accumulators obtained from a row's meeting-time field. -/
def rowLineAcc (row : Row) : LineAcc :=
  collectLines (splitInfoLines (pyStrip (rowGet row "上课考试信息")))

/-- Embeds `parse_course_row`. -/
def parseCourseRow (row : Row) : Course :=
  let course_code := pyStrip (rowGet row "课程号")
  let course_name := pyStrip (rowGet row "课程名")
  let teacher := pyStrip (rowGet row "教师")
  let department := pyStrip (rowGet row "开课单位")
  let class_no := pyStrip (rowGet row "班号")
  let category := pyStrip (rowGet row "课程类别")
  let grade := pyStrip (rowGet row "年级")
  let credits := parseCredits (pyStrip (rowGet row "学分"))
  let acc := rowLineAcc row
  let room_for_key :=
    match acc.rooms with
    | [] => "（地点未知）"
    | r :: _ => r
  { uid := (course_code, class_no),
    key := { course_name := course_name, course_code := course_code,
             room := room_for_key, class_no := class_no },
    course_name := course_name, course_code := course_code,
    teacher := teacher, department := department, credits := credits,
    class_no := class_no, category := category, grade := grade,
    meetings := acc.meetings, raw := row, parse_warnings := acc.warnings }

/-! ### Batch loading: the row loop of `parse_file`

File decoding (`load_rows_from_xlsx` / `load_rows_from_csv`) is the
producers' job; the loop below is `parse_file` applied to an already
decoded row sequence. `parse_course_row` is total on string-valued rows,
so the source's per-row `except` arm is unreachable. -/

/-- Render a uid for a diagnostic message. -/
def uidText (u : String × String) : String :=
  "(" ++ u.1 ++ ", " ++ u.2 ++ ")"

/-- Mutable state of the `parse_file` row loop. -/
structure LoadState where
  courses : List Course
  by_key : List (CourseKey × List Course)
  by_uid : List ((String × String) × Course)
  global_warnings : List String
  empty_room_rows : List String
  meeting_parse_warnings : List String
  key_collisions : List String

/-- Dict lookup in the uid index. -/
def uidFind : List ((String × String) × Course) → (String × String) → Option Course
  | [], _ => none
  | (k, c) :: rest, u => if k = u then some c else uidFind rest u

/-- Dict assignment in the uid index (overwrite in place, else append). -/
def uidInsert : List ((String × String) × Course) → (String × String) → Course →
    List ((String × String) × Course)
  | [], u, c => [(u, c)]
  | (k, c0) :: rest, u, c =>
    if k = u then (u, c) :: rest else (k, c0) :: uidInsert rest u c

/-- Dict lookup in the key index. -/
def keyFind : List (CourseKey × List Course) → CourseKey → Option (List Course)
  | [], _ => none
  | (k, l) :: rest, key => if k = key then some l else keyFind rest key

/-- Embeds `by_key.setdefault(key, []).append(c)`. -/
def keyAppend : List (CourseKey × List Course) → CourseKey → Course →
    List (CourseKey × List Course)
  | [], key, c => [(key, [c])]
  | (k, l) :: rest, key, c =>
    if k = key then (k, l ++ [c]) :: rest else (k, l) :: keyAppend rest key c

/-- One iteration of the `parse_file` row loop (row number `idx`). -/
def loadStep (idx : Nat) (st : LoadState) (row : Row) : LoadState :=
  let c := parseCourseRow row
  let courses := st.courses ++ [c]
  let global_warnings :=
    match uidFind st.by_uid c.uid with
    | some old =>
      st.global_warnings ++
        ["第" ++ toString idx ++ "行 uid重复：" ++ uidText c.uid ++
          " | 旧教师=" ++ old.teacher ++ " 新教师=" ++ c.teacher]
    | none => st.global_warnings
  let by_uid := uidInsert st.by_uid c.uid c
  let empty_room_rows :=
    if c.key.room = "" then
      st.empty_room_rows ++
        ["第" ++ toString idx ++ "行 room为空 | 课程号=" ++ c.course_code ++
          " 课程名=" ++ c.course_name ++ " 班号=" ++ c.class_no ++
          " 教师=" ++ c.teacher ++ " | 上课考试信息=" ++ rowGet row "上课考试信息"]
    else st.empty_room_rows
  let meeting_parse_warnings :=
    st.meeting_parse_warnings ++
      c.parse_warnings.map (fun w =>
        "第" ++ toString idx ++ "行 " ++ c.course_code ++ "/" ++ c.course_name ++
          "/班" ++ c.class_no ++ " | " ++ w)
  let key_collisions :=
    match keyFind st.by_key c.key with
    | some (old :: _) =>
      st.key_collisions ++
        ["第" ++ toString idx ++ "行 key碰撞：" ++ c.key.course_name ++ "/" ++
          c.key.course_code ++ "/" ++ c.key.room ++ "/" ++ c.key.class_no ++
          " | 已有(班号=" ++ old.class_no ++ ",教师=" ++ old.teacher ++
          ") 又来(班号=" ++ c.class_no ++ ",教师=" ++ c.teacher ++ ")"]
    | _ => st.key_collisions
  let by_key := keyAppend st.by_key c.key c
  ⟨courses, by_key, by_uid, global_warnings, empty_room_rows,
    meeting_parse_warnings, key_collisions⟩

/-- The `parse_file` row loop, `idx` enumerating from 2. -/
def parseRowsLoop : Nat → List Row → LoadState → LoadState
  | _, [], st => st
  | idx, row :: rest, st => parseRowsLoop (idx + 1) rest (loadStep idx st row)

/-- Embeds `parse_file` on an already decoded row sequence. -/
def parseRows (rows : List Row) : ParseResult :=
  let st := parseRowsLoop 2 rows ⟨[], [], [], [], [], [], []⟩
  { courses := st.courses, by_key := st.by_key, by_uid := st.by_uid,
    global_warnings := st.global_warnings,
    empty_room_rows := st.empty_room_rows,
    meeting_parse_warnings := st.meeting_parse_warnings,
    key_collisions := st.key_collisions,
    total_rows := rows.length }

/-! ### Occupancy and conflict engine (`course_ui.py`)

The UI widgets are presentation; the logic below embeds
`build_occupied_cells_for_course`, `CourseUI._find_conflict_between` and the
decision core of `CourseUI._add_selected_courses`. Python sets become
duplicate-free lists (`occ_cache` values and the selected set), and the
`occupied` dict becomes an insertion-ordered association list. -/

/-- Embeds `WEEK_MIN`. -/
def WEEK_MIN : Int := 1

/-- Embeds `WEEK_MAX`. -/
def WEEK_MAX : Int := 16

/-- A (week, weekday, period) occupancy cell. -/
abbrev Cell := Int × Int × Int

/-- A course handle: (course code, class number). -/
abbrev UID := String × String

/-- Python `range(a, b + 1)` over integers. -/
def intRange (a b : Int) : List Int :=
  (List.range (b + 1 - a).toNat).map (fun i => a + Int.ofNat i)

/-- Embeds `set.add`: append a cell unless already present. -/
def addCell (occ : List Cell) (cell : Cell) : List Cell :=
  if cell ∈ occ then occ else occ ++ [cell]

/-- Embeds `build_occupied_cells_for_course`. -/
def buildOccupiedCellsForCourse (c : Course) : List Cell :=
  (intRange WEEK_MIN WEEK_MAX).foldl (fun occ week =>
    c.meetings.foldl (fun occ m =>
      if m.occursOnWeek week then
        (intRange m.start_period m.end_period).foldl
          (fun occ p => addCell occ (week, m.weekday, p)) occ
      else occ) occ) []

/-- A reported conflict: the owner of the already-claimed cell, the
candidate that collided, and the exact cell. The source renders these as a
message via `by_uid` lookups; the identification is the same data. -/
structure ConflictInfo where
  firstUid : UID
  secondUid : UID
  cell : Cell
deriving DecidableEq, Repr

/-- Embeds `occupied[cell]` lookup. -/
def lookupCell : List (Cell × UID) → Cell → Option UID
  | [], _ => none
  | e :: rest, c => if e.1 = c then some e.2 else lookupCell rest c

/-- Embeds `occupied[cell] = uid` (overwrite in place, else append). -/
def insertCell : List (Cell × UID) → Cell → UID → List (Cell × UID)
  | [], c, u => [(c, u)]
  | e :: rest, c, u =>
    if e.1 = c then (c, u) :: rest else e :: insertCell rest c u

/-- The inner cell loop of `_find_conflict_between` for one candidate:
report the first already-claimed cell, otherwise claim them all. -/
def checkCells (occupied : List (Cell × UID)) : List Cell → UID →
    ConflictInfo ⊕ List (Cell × UID)
  | [], _ => Sum.inr occupied
  | cell :: rest, u =>
    match lookupCell occupied cell with
    | some other => Sum.inl ⟨other, u, cell⟩
    | none => checkCells (insertCell occupied cell u) rest u

/-- The candidate loop of `_find_conflict_between`. -/
def walkCandidates (occupied : List (Cell × UID)) (occ : UID → List Cell) :
    List UID → Option ConflictInfo
  | [] => none
  | u :: rest =>
    match checkCells occupied (occ u) u with
    | Sum.inl info => some info
    | Sum.inr occupied2 => walkCandidates occupied2 occ rest

/-- Embeds `CourseUI._find_conflict_between`: seed the occupied map with the
selected set's cells, then walk the candidates in order. -/
def findConflictBetween (selected : List UID) (occ : UID → List Cell)
    (uids : List UID) : Option ConflictInfo :=
  let occupied := selected.foldl (fun o v =>
    (occ v).foldl (fun o2 cell => insertCell o2 cell v) o) []
  walkCandidates occupied occ uids

/-- The outcome tag of `_add_selected_courses`. -/
inductive AddResult
  | emptySelection
  | conflict (info : ConflictInfo)
  | creditExceeded (current added limit : ℚ)
  | added
deriving DecidableEq, Repr

/-- The outcome of `_add_selected_courses`: what happened, and the selected
set afterwards. -/
structure AddOutcome where
  result : AddResult
  selected : List UID
deriving DecidableEq, Repr

/-- Embeds `self.selected.add(uid)` on the list model of the set. -/
def addUID (sel : List UID) (u : UID) : List UID :=
  if u ∈ sel then sel else sel ++ [u]

/-- Sum of credits over a collection of uids. -/
def creditSum (credits : UID → ℚ) (l : List UID) : ℚ :=
  (l.map credits).sum

/-- The `1e-9` floating tolerance, as an exact rational. -/
def creditTol : ℚ := 1 / 1000000000

/-- The decision core of `CourseUI._add_selected_courses`: empty batches
return immediately; a conflict or a credit overflow rejects the whole batch
leaving the selection unchanged; otherwise every candidate is added.
Credits are modelled as exact rationals. -/
def addSelectedCourses (sel : List UID) (occ : UID → List Cell)
    (credits : UID → ℚ) (limit : ℚ) (uidsToAdd : List UID) : AddOutcome :=
  if uidsToAdd.isEmpty then ⟨AddResult.emptySelection, sel⟩
  else
    match findConflictBetween sel occ uidsToAdd with
    | some info => ⟨AddResult.conflict info, sel⟩
    | none =>
      let current := creditSum credits sel
      let addCredits := creditSum credits uidsToAdd
      if current + addCredits > limit + creditTol then
        ⟨AddResult.creditExceeded current addCredits limit, sel⟩
      else ⟨AddResult.added, uidsToAdd.foldl addUID sel⟩

/-! ### Claim C1 -/

/-- C1: for every Meeting `m` and every integer week `w`, `m.occurs_on_week w`
is true iff `m.start_week ≤ w ≤ m.end_week` and the parity of `w` matches
`m.pattern` (EVERY matches every week, ODD matches odd `w`, EVEN matches even `w`). -/
theorem occurs_on_week_iff (m : Meeting) (w : Int) :
    m.occursOnWeek w = true ↔
      (m.start_week ≤ w ∧ w ≤ m.end_week ∧
        (m.pattern = WeekPattern.EVERY ∨
         (m.pattern = WeekPattern.ODD ∧ Odd w) ∨
         (m.pattern = WeekPattern.EVEN ∧ Even w))) := by
  unfold Meeting.occursOnWeek
  rcases m.pattern <;>
    simp [Int.odd_iff, Int.even_iff] <;>
    omega

/-! ### Claim C2 -/

theorem weekdayMap_bounds {c : Char} {n : Int} (h : weekdayMap c = some n) :
    1 ≤ n ∧ n ≤ 7 := by
  unfold weekdayMap at h
  repeat' split at h
  all_goals simp_all
  all_goals omega

theorem clockSlotMap_ranges {e : String × Int × Int × (Int × Int)}
    (h : e ∈ clockSlotMap) : e.2.2.2 = (5, 8) ∨ e.2.2.2 = (9, 12) := by
  simp only [clockSlotMap, List.mem_cons, List.not_mem_nil, or_false] at h
  rcases h with h1 | h1 | h1 <;> subst h1 <;> simp

theorem clockToPeriods_range {tod : String} {s e : Int} {p : Int × Int}
    (h : clockToPeriods tod s e = some p) : p = (5, 8) ∨ p = (9, 12) := by
  simp only [clockToPeriods] at h
  split at h
  · rename_i e1 heq
    injection h with h
    subst h
    exact clockSlotMap_ranges (List.mem_of_find?_eq_some heq)
  · split at h
    · rename_i e1 heq
      injection h with h
      subst h
      exact clockSlotMap_ranges (List.mem_of_find?_eq_some heq)
    · split at h
      · injection h with h; subst h; simp
      · split at h
        · injection h with h; subst h; simp
        · exact absurd h (by simp)

theorem buildPeriodMeeting_fields {caps : PeriodCaps} {raw : String} {m : Meeting}
    (h : buildPeriodMeeting caps raw = some m) :
    1 ≤ m.weekday ∧ m.weekday ≤ 7 ∧
    m.start_period = ((min caps.ps caps.pe : Nat) : Int) ∧
    m.end_period = ((max caps.ps caps.pe : Nat) : Int) := by
  simp only [buildPeriodMeeting] at h
  split at h
  · exact absurd h (by simp)
  · rename_i wd hwd
    have hb := weekdayMap_bounds hwd
    injection h with h
    subst h
    refine ⟨hb.1, hb.2, ?_, ?_⟩ <;>
      · dsimp only
        split <;> push_cast <;> omega

theorem buildClockMeeting_fields {caps : ClockCaps} {raw : String} {m : Meeting}
    (h : buildClockMeeting caps raw = some m) :
    1 ≤ m.weekday ∧ m.weekday ≤ 7 ∧
    ((m.start_period, m.end_period) = ((5 : Int), (8 : Int)) ∨
     (m.start_period, m.end_period) = ((9 : Int), (12 : Int))) := by
  simp only [buildClockMeeting] at h
  split at h
  · exact absurd h (by simp)
  · rename_i wd hwd
    have hb := weekdayMap_bounds hwd
    split at h
    · exact absurd h (by simp)
    · rename_i p1 p2 hp
      have hr := clockToPeriods_range hp
      injection h with h
      subst h
      refine ⟨hb.1, hb.2, ?_⟩
      simpa using hr

/-- C2 (amended): every Meeting returned by `parse_meeting_line` has weekday
in 1..7 and `start_period ≤ end_period`; in the period grammar a reversed
period range is swapped (`start_period = min`, `end_period = max` of the two
captured endpoints). The original claim's remaining bounds — `start_week ≤
end_week` and periods confined to 1..12 — are not enforced by the code (see
the counterexample). -/
theorem parsed_meeting_bounds :
    (∀ line m, parseMeetingLine line = some m →
      1 ≤ m.weekday ∧ m.weekday ≤ 7 ∧ m.start_period ≤ m.end_period)
    ∧ (∀ caps raw m, buildPeriodMeeting caps raw = some m →
      m.start_period = ((min caps.ps caps.pe : Nat) : Int) ∧
      m.end_period = ((max caps.ps caps.pe : Nat) : Int)) := by
  constructor
  · intro line m h
    simp only [parseMeetingLine] at h
    split at h
    · exact absurd h (by simp)
    · split at h
      case _ caps heq =>
        have hf := buildPeriodMeeting_fields h
        refine ⟨hf.1, hf.2.1, ?_⟩
        rw [hf.2.2.1, hf.2.2.2]
        push_cast
        omega
      case _ =>
        split at h
        case _ caps heq =>
          have hf := buildClockMeeting_fields h
          refine ⟨hf.1, hf.2.1, ?_⟩
          rcases hf.2.2 with h1 | h1 <;>
            · have e1 := congrArg Prod.fst h1
              have e2 := congrArg Prod.snd h1
              simp at e1 e2
              omega
        case _ => exact absurd h (by simp)
  · intro caps raw m h
    exact (buildPeriodMeeting_fields h).2.2

/-- C2 counterexample: the period-grammar line `16~1周 周一 0~13节` parses to
a Meeting with `start_week = 16 > 1 = end_week` (week endpoints are not
swapped) and `start_period = 0`, `end_period = 13` (periods are not checked
against 1..12), so the claimed data-model bounds fail. -/
theorem parsed_meeting_bounds_cex :
    (parseMeetingLine "16~1周 周一 0~13节").map specMeetingBounds = some false := by
  rfl

/-- Witness: the bounds hold on the spec's round-trip example line. -/
theorem parsed_meeting_bounds_check :
    1 ≤ (Meeting.mk 3 16 WeekPattern.EVERY 3 3 4 "理教107"
        "3~16周 每周 周三 3~4节 理教107").weekday ∧
    (Meeting.mk 3 16 WeekPattern.EVERY 3 3 4 "理教107"
        "3~16周 每周 周三 3~4节 理教107").weekday ≤ 7 ∧
    (Meeting.mk 3 16 WeekPattern.EVERY 3 3 4 "理教107"
        "3~16周 每周 周三 3~4节 理教107").start_period ≤
      (Meeting.mk 3 16 WeekPattern.EVERY 3 3 4 "理教107"
        "3~16周 每周 周三 3~4节 理教107").end_period :=
  parsed_meeting_bounds.1 "3~16周 每周 周三 3~4节 理教107" _ (by rfl)

/-! ### Claim C5 -/

/-- C5: the clock-notation line `1-16周周二下午1-4点半,二教205` yields exactly
the Meeting (1..16 weeks, EVERY, Tuesday, periods 5..8, room 二教205): the
trailing 半 forces minutes to 30 (4:xx ↦ 270 minutes), the afternoon token
lifts both ends by 12 hours (60 ↦ 780, 270 ↦ 990), and 780–990 minutes hit
the afternoon slot anchor exactly, mapping to periods 5..8. -/
theorem clock_line_example :
    parseClockParts 1 none false = 60 ∧
    parseClockParts 4 none true = 270 ∧
    clockToPeriods "下午" 780 990 = some (5, 8) ∧
    parseMeetingLine "1-16周周二下午1-4点半,二教205" =
      some { start_week := 1, end_week := 16, pattern := WeekPattern.EVERY,
             weekday := 2, start_period := 5, end_period := 8,
             room := "二教205", raw := "1-16周周二下午1-4点半,二教205" } :=
  ⟨rfl, rfl, rfl, rfl⟩

/-! ### Claim C4 -/

theorem loadStep_courses (idx : Nat) (st : LoadState) (row : Row) :
    (loadStep idx st row).courses = st.courses ++ [parseCourseRow row] := rfl

theorem parseRowsLoop_courses_length (rows : List Row) :
    ∀ (idx : Nat) (st : LoadState),
      ((parseRowsLoop idx rows st).courses).length = st.courses.length + rows.length := by
  induction rows with
  | nil => intro idx st; simp [parseRowsLoop]
  | cons row rest ih =>
    intro idx st
    simp only [parseRowsLoop]
    rw [ih, loadStep_courses]
    simp
    omega

/-- C4: loading any row sequence yields exactly one Course per input row —
`len(result.courses) == total_rows == number of input rows` always, no
matter how many lines or rows fail to parse. -/
theorem load_keeps_every_row (rows : List Row) :
    (parseRows rows).courses.length = rows.length ∧
    (parseRows rows).total_rows = rows.length := by
  constructor
  · simp only [parseRows]
    rw [parseRowsLoop_courses_length]
    simp
  · rfl

/-! ### Claim C3 -/

theorem processLine_rooms {acc : LineAcc} {ln r : String}
    (h : r ∈ (processLine acc ln).rooms) : r ∈ acc.rooms ∨ r ≠ "" := by
  simp only [processLine] at h
  split at h
  · exact Or.inl h
  split at h
  case _ =>
    split at h
    · exact Or.inl h
    · rename_i hrm
      simp only [List.mem_append, List.mem_singleton] at h
      rcases h with h | h
      · exact Or.inl h
      · subst h; exact Or.inr hrm
  case _ mt _ =>
    split at h
    · rename_i hmt
      simp only [List.mem_append, List.mem_singleton] at h
      rcases h with h | h
      · exact Or.inl h
      · subst h; exact Or.inr hmt
    · split at h
      · exact Or.inl h
      · rename_i hrm
        simp only [List.mem_append, List.mem_singleton] at h
        rcases h with h | h
        · exact Or.inl h
        · subst h; exact Or.inr hrm

theorem foldl_processLine_rooms {lines : List String} {r : String} :
    ∀ {acc : LineAcc}, r ∈ (lines.foldl processLine acc).rooms →
      r ∈ acc.rooms ∨ r ≠ "" := by
  induction lines with
  | nil => intro acc h; exact Or.inl h
  | cons ln rest ih =>
    intro acc h
    simp only [List.foldl_cons] at h
    rcases ih h with h2 | h2
    · exact processLine_rooms h2
    · exact Or.inr h2

theorem rowLineAcc_rooms_ne {row : Row} {r : String}
    (h : r ∈ (rowLineAcc row).rooms) : r ≠ "" := by
  unfold rowLineAcc collectLines at h
  rcases foldl_processLine_rooms h with h2 | h2
  · simp at h2
  · exact h2

theorem parseCourseRow_room_ne (row : Row) : (parseCourseRow row).key.room ≠ "" := by
  simp only [parseCourseRow]
  cases hr : (rowLineAcc row).rooms with
  | nil => simp [hr]
  | cons r rest =>
    simp only [hr]
    exact rowLineAcc_rooms_ne (hr ▸ List.mem_cons_self r rest)

theorem parseRowsLoop_empty_room (rows : List Row) :
    ∀ (idx : Nat) (st : LoadState),
      (parseRowsLoop idx rows st).empty_room_rows = st.empty_room_rows := by
  induction rows with
  | nil => intro idx st; rfl
  | cons row rest ih =>
    intro idx st
    simp only [parseRowsLoop]
    rw [ih]
    simp only [loadStep]
    rw [if_neg (parseCourseRow_room_ne row)]

/-- C3 counterexample: for a row whose meeting-time field is the unparsable
`待定`, no room is recovered from any line, the CourseKey room is the
sentinel `（地点未知）`, the row is retained — but `empty_room_rows` is empty,
not flagged as the claim states (the flag tests for the empty string, which
the sentinel makes impossible). -/
theorem unknown_room_sentinel_cex :
    (rowLineAcc [("上课考试信息", "待定")]).rooms = [] ∧
    (parseRows [[("上课考试信息", "待定")]]).courses.map (fun c => c.key.room) =
      ["（地点未知）"] ∧
    (parseRows [[("上课考试信息", "待定")]]).empty_room_rows = [] :=
  ⟨rfl, rfl, rfl⟩

/-- C3 (amended): when no non-empty room is recovered from any meeting line
of a row, the built Course's CourseKey room is the sentinel `（地点未知）` and
the row is still retained (one Course per input row); however the row is not
added to `empty_room_rows` — that diagnostic tests `room == ""`, which the
sentinel default makes unsatisfiable, so `empty_room_rows` is always empty. -/
theorem unknown_room_sentinel :
    (∀ row : Row, (rowLineAcc row).rooms = [] →
      (parseCourseRow row).key.room = "（地点未知）")
    ∧ (∀ rows : List Row, (parseRows rows).empty_room_rows = [])
    ∧ (∀ rows : List Row, (parseRows rows).courses.length = rows.length) := by
  refine ⟨?_, ?_, ?_⟩
  · intro row h
    simp only [parseCourseRow, h]
  · intro rows
    simp only [parseRows]
    rw [parseRowsLoop_empty_room]
  · intro rows
    exact (load_keeps_every_row rows).1

/-- Witness: the sentinel branch fires on the `待定` row. -/
theorem unknown_room_sentinel_check :
    (parseCourseRow [("上课考试信息", "待定")]).key.room = "（地点未知）" :=
  unknown_room_sentinel.1 [("上课考试信息", "待定")] (by rfl)

/-! ### Claim C6 -/

theorem listStarts_iff {p cs : List Char} :
    listStarts p cs = true ↔ ∃ t, cs = p ++ t := by
  induction p generalizing cs with
  | nil => simp [listStarts]
  | cons a ps ih =>
    cases cs with
    | nil => simp [listStarts]
    | cons c cs2 =>
      simp only [listStarts, Bool.and_eq_true, beq_iff_eq, ih, List.cons_append,
        List.cons_eq_cons]
      constructor
      · rintro ⟨hac, t, ht⟩
        exact ⟨t, hac.symm, ht⟩
      · rintro ⟨t, hac, ht⟩
        exact ⟨hac.symm, t, ht⟩

theorem dropWhile_append_stop {f : Char → Bool} {c : Char} (hc : f c = false)
    (l1 l2 : List Char) :
    (l1 ++ c :: l2).dropWhile f = l1.dropWhile f ++ c :: l2 := by
  induction l1 with
  | nil => simp [List.dropWhile_cons, hc]
  | cons a l1 ih =>
    by_cases ha : f a = true
    · simp [List.dropWhile_cons, ha, ih]
    · simp [List.dropWhile_cons, ha]

theorem rstrip_append {p t : List Char} (hp : p ≠ [])
    (hw : ∀ c ∈ p, isPyWS c = false) :
    rstripChars (p ++ t) = p ++ rstripChars t := by
  obtain ⟨c, rest, hrev⟩ : ∃ c rest, p.reverse = c :: rest := by
    cases hq : p.reverse with
    | nil =>
      exfalso
      exact hp (by simpa using congrArg List.reverse hq)
    | cons c rest => exact ⟨c, rest, rfl⟩
  have hcp : c ∈ p := by
    have : c ∈ p.reverse := by rw [hrev]; exact List.mem_cons_self _ _
    simpa using this
  have hc : isPyWS c = false := hw c hcp
  have hp2 : (c :: rest).reverse = p := by
    rw [← hrev]; simp
  unfold rstripChars
  rw [List.reverse_append, hrev, dropWhile_append_stop hc, List.reverse_append, hp2]

theorem strStarts_pyStrip {p s : String} (hp : p.data ≠ [])
    (hw : ∀ c ∈ p.data, isPyWS c = false)
    (h : strStarts p s = true) : strStarts p (pyStrip s) = true := by
  unfold strStarts at h ⊢
  obtain ⟨t, ht⟩ := listStarts_iff.mp h
  have hdata : (pyStrip s).data = p.data ++ rstripChars t := by
    show lstripChars (rstripChars s.data) = p.data ++ rstripChars t
    rw [ht, rstrip_append hp hw]
    unfold lstripChars
    cases hq : p.data with
    | nil => exact absurd hq hp
    | cons c0 cs0 =>
      have hc0 : isPyWS c0 = false := hw c0 (by rw [hq]; exact List.mem_cons_self _ _)
      simp [List.dropWhile_cons, hc0]
  rw [hdata]
  exact listStarts_iff.mpr ⟨rstripChars t, rfl⟩

/-- C6: any meeting-time line starting with an exam-schedule head (考试时间
or 考试方式 — colon or not, since the bare head already matches) contributes
nothing to the Course being built: no Meeting, no warning, no room. -/
theorem exam_line_skipped (acc : LineAcc) (ln : String)
    (h : strStarts "考试时间" ln = true ∨ strStarts "考试方式" ln = true) :
    processLine acc ln = acc := by
  have hex : isExamLine ln = true := by
    rcases h with h | h
    · have h2 := strStarts_pyStrip (by decide) (by decide) h
      simp [isExamLine, examHeads, h2]
    · have h2 := strStarts_pyStrip (by decide) (by decide) h
      simp [isExamLine, examHeads, h2]
  simp [processLine, hex]

/-- Witness: the spec's example exam line is skipped outright. -/
theorem exam_line_skipped_check :
    processLine ⟨[], [], []⟩ "考试时间：2024-01-10 14:00" = ⟨[], [], []⟩ :=
  exam_line_skipped ⟨[], [], []⟩ "考试时间：2024-01-10 14:00" (Or.inl (by rfl))

/-! ### Claim C7 -/

/-- C7: a non-empty, non-exam line matching neither grammar adds no Meeting,
adds exactly one warning quoting the line, and still contributes the
fallback-extracted room (when non-empty); a first recovered room becomes the
CourseKey's room component. -/
theorem unparsed_line_behavior :
    (∀ (acc : LineAcc) (ln : String), ln ≠ "" → isExamLine ln = false →
      parseMeetingLine ln = none →
      processLine acc ln =
        { meetings := acc.meetings,
          warnings := acc.warnings ++ ["未能解析上课行：" ++ ln],
          rooms := acc.rooms ++
            (if extractRoomFromAny ln = "" then [] else [extractRoomFromAny ln]) })
    ∧ (∀ (row : Row) (r : String) (rest : List String),
        (rowLineAcc row).rooms = r :: rest →
        (parseCourseRow row).key.room = r) := by
  constructor
  · intro acc ln hne hex hp
    unfold processLine
    rw [if_neg (by simp [hex]), hp]
    by_cases hrm : extractRoomFromAny ln = ""
    · simp [hrm]
    · simp [hrm]
  · intro row r rest h
    simp only [parseCourseRow, h]

/-- Witness: `待定` yields one warning and no meeting/room; a fallback room
on the first line becomes the key room. -/
theorem unparsed_line_behavior_check :
    processLine ⟨[], [], []⟩ "待定" = ⟨[], ["未能解析上课行：待定"], []⟩ ∧
    (parseCourseRow [("上课考试信息", "1~16周 周三 3~4节 理教107")]).key.room =
      "理教107" := by
  constructor
  · have h := unparsed_line_behavior.1 ⟨[], [], []⟩ "待定" (by decide) (by rfl) (by rfl)
    rw [h]
    rfl
  · exact unparsed_line_behavior.2 [("上课考试信息", "1~16周 周三 3~4节 理教107")]
      "理教107" [] (by rfl)

/-! ### Claim C8: occupied-map and walk lemmas -/

theorem hasCell_insert {occ : List (Cell × UID)} {cell : Cell} {u : UID} {c : Cell} :
    (lookupCell (insertCell occ cell u) c).isSome = true ↔
      c = cell ∨ (lookupCell occ c).isSome = true := by
  induction occ with
  | nil =>
    constructor
    · intro h
      by_cases hc : cell = c
      · exact Or.inl hc.symm
      · exfalso
        have h0 : lookupCell (insertCell [] cell u) c = none := by
          simp [insertCell, lookupCell, hc]
        rw [h0] at h
        simp at h
    · rintro (rfl | h)
      · simp [insertCell, lookupCell]
      · simp [lookupCell] at h
  | cons e rest ih =>
    simp only [insertCell]
    by_cases h1 : e.1 = cell
    · rw [if_pos h1]
      simp only [lookupCell]
      by_cases h2 : cell = c
      · subst h2; simp [h1]
      · rw [if_neg h2]
        have h3 : ¬ e.1 = c := by rw [h1]; exact h2
        rw [if_neg h3]
        have h4 : ¬ c = cell := fun hh => h2 hh.symm
        simp [h4]
    · rw [if_neg h1]
      simp only [lookupCell]
      by_cases h2 : e.1 = c
      · rw [if_pos h2, if_pos h2]
        simp
      · rw [if_neg h2, if_neg h2]
        exact ih

theorem hasCell_registerAll (cells : List Cell) (v : UID) :
    ∀ (o : List (Cell × UID)) (c : Cell),
      (lookupCell (cells.foldl (fun o2 cell => insertCell o2 cell v) o) c).isSome = true ↔
        c ∈ cells ∨ (lookupCell o c).isSome = true := by
  induction cells with
  | nil => simp
  | cons x rest ih =>
    intro o c
    simp only [List.foldl_cons]
    rw [ih]
    rw [hasCell_insert]
    simp only [List.mem_cons]
    tauto

theorem hasCell_seed (sel : List UID) (occ : UID → List Cell) :
    ∀ (o : List (Cell × UID)) (c : Cell),
      (lookupCell (sel.foldl (fun o2 v =>
          (occ v).foldl (fun o3 cell => insertCell o3 cell v) o2) o) c).isSome = true ↔
        (∃ v ∈ sel, c ∈ occ v) ∨ (lookupCell o c).isSome = true := by
  induction sel with
  | nil => simp
  | cons v0 rest ih =>
    intro o c
    simp only [List.foldl_cons]
    rw [ih, hasCell_registerAll]
    simp only [List.mem_cons]
    constructor
    · rintro (⟨v, hv, hc⟩ | h | h)
      · exact Or.inl ⟨v, Or.inr hv, hc⟩
      · exact Or.inl ⟨v0, Or.inl rfl, h⟩
      · exact Or.inr h
    · rintro (⟨v, hv | hv, hc⟩ | h)
      · subst hv; exact Or.inr (Or.inl hc)
      · exact Or.inl ⟨v, hv, hc⟩
      · exact Or.inr (Or.inr h)

theorem checkCells_inl {cells : List Cell} {u : UID} :
    ∀ {occupied : List (Cell × UID)}, cells.Nodup →
      ((∃ info, checkCells occupied cells u = Sum.inl info) ↔
        ∃ c ∈ cells, (lookupCell occupied c).isSome = true) := by
  induction cells with
  | nil =>
    intro occupied _
    simp [checkCells]
  | cons x rest ih =>
    intro occupied hnd
    simp only [checkCells]
    cases hl : lookupCell occupied x with
    | some other =>
      simp only [hl]
      constructor
      · intro _
        exact ⟨x, List.mem_cons_self _ _, by simp [hl]⟩
      · intro _
        exact ⟨⟨other, u, x⟩, rfl⟩
    | none =>
      simp only [hl]
      rw [ih (List.Nodup.of_cons hnd)]
      have hx : x ∉ rest := by
        have := List.nodup_cons.mp hnd
        exact this.1
      constructor
      · rintro ⟨c, hc, hcell⟩
        rcases hasCell_insert.mp hcell with h | h
        · subst h; exact absurd hc hx
        · exact ⟨c, List.mem_cons_of_mem _ hc, h⟩
      · rintro ⟨c, hc, hcell⟩
        rcases List.mem_cons.mp hc with rfl | hc2
        · rw [hl] at hcell; simp at hcell
        · exact ⟨c, hc2, hasCell_insert.mpr (Or.inr hcell)⟩

theorem checkCells_inr {cells : List Cell} {u : UID} :
    ∀ {occupied occ2 : List (Cell × UID)},
      checkCells occupied cells u = Sum.inr occ2 →
      ∀ c, (lookupCell occ2 c).isSome = true ↔
        c ∈ cells ∨ (lookupCell occupied c).isSome = true := by
  induction cells with
  | nil =>
    intro occupied occ2 h c
    simp only [checkCells] at h
    injection h with h
    subst h
    simp
  | cons x rest ih =>
    intro occupied occ2 h c
    simp only [checkCells] at h
    cases hl : lookupCell occupied x with
    | some other => rw [hl] at h; cases h
    | none =>
      rw [hl] at h
      rw [ih h c, hasCell_insert]
      simp only [List.mem_cons]
      constructor
      · rintro (h2 | h2 | h2)
        · exact Or.inl (Or.inr h2)
        · exact Or.inl (Or.inl h2)
        · exact Or.inr h2
      · rintro ((h2 | h2) | h2)
        · exact Or.inr (Or.inl h2)
        · exact Or.inl h2
        · exact Or.inr (Or.inr h2)

theorem walkCandidates_isSome {occ : UID → List Cell} (hnd : ∀ v, (occ v).Nodup) :
    ∀ (uids : List UID) (occupied : List (Cell × UID)),
      (walkCandidates occupied occ uids).isSome = true ↔
        ∃ pre u post, uids = pre ++ u :: post ∧
          ∃ c ∈ occ u,
            ((lookupCell occupied c).isSome = true ∨ ∃ v ∈ pre, c ∈ occ v) := by
  intro uids
  induction uids with
  | nil =>
    intro occupied
    constructor
    · intro h; simp [walkCandidates] at h
    · rintro ⟨pre, u, post, heq, -⟩
      exact absurd heq (by simp)
  | cons u0 rest ih =>
    intro occupied
    simp only [walkCandidates]
    cases hc : checkCells occupied (occ u0) u0 with
    | inl info =>
      simp only [hc, Option.isSome_some, true_iff]
      obtain ⟨c, hcm, hcell⟩ := (checkCells_inl (hnd u0)).mp ⟨info, hc⟩
      exact ⟨[], u0, rest, rfl, c, hcm, Or.inl hcell⟩
    | inr occ2 =>
      simp only [hc]
      rw [ih occ2]
      constructor
      · rintro ⟨pre, u, post, heq, c, hcm, hclaim⟩
        refine ⟨u0 :: pre, u, post, by rw [heq]; rfl, c, hcm, ?_⟩
        rcases hclaim with h | ⟨v, hv, hcv⟩
        · rcases (checkCells_inr hc c).mp h with h2 | h2
          · exact Or.inr ⟨u0, List.mem_cons_self _ _, h2⟩
          · exact Or.inl h2
        · exact Or.inr ⟨v, List.mem_cons_of_mem _ hv, hcv⟩
      · rintro ⟨pre, u, post, heq, c, hcm, hclaim⟩
        cases pre with
        | nil =>
          simp only [List.nil_append, List.cons.injEq] at heq
          obtain ⟨h3, h4⟩ := heq
          subst h3
          subst h4
          rcases hclaim with h | h
          · exfalso
            obtain ⟨info, h2⟩ := (checkCells_inl (hnd u0)).mpr ⟨c, hcm, h⟩
            rw [hc] at h2
            cases h2
          · simp at h
        | cons v0 pre2 =>
          simp only [List.cons_append, List.cons.injEq] at heq
          obtain ⟨rfl, heq2⟩ := heq
          refine ⟨pre2, u, post, heq2, c, hcm, ?_⟩
          rcases hclaim with h | ⟨v, hv, hcv⟩
          · exact Or.inl ((checkCells_inr hc c).mpr (Or.inr h))
          · rcases List.mem_cons.mp hv with rfl | hv2
            · exact Or.inl ((checkCells_inr hc c).mpr (Or.inl hcv))
            · exact Or.inr ⟨v, hv2, hcv⟩

theorem findConflict_isSome (sel : List UID) (occ : UID → List Cell)
    (uids : List UID) (hnd : ∀ v, (occ v).Nodup) :
    (findConflictBetween sel occ uids).isSome = true ↔
      ∃ pre u post, uids = pre ++ u :: post ∧
        ∃ c ∈ occ u, ((∃ v ∈ sel, c ∈ occ v) ∨ ∃ v ∈ pre, c ∈ occ v) := by
  unfold findConflictBetween
  rw [walkCandidates_isSome hnd]
  constructor <;>
    rintro ⟨pre, u, post, heq, c, hcm, hcl⟩ <;>
    refine ⟨pre, u, post, heq, c, hcm, ?_⟩
  · rcases hcl with h | h
    · rcases (hasCell_seed sel occ [] c).mp h with h2 | h2
      · exact Or.inl h2
      · simp [lookupCell] at h2
    · exact Or.inr h
  · rcases hcl with h | h
    · exact Or.inl ((hasCell_seed sel occ [] c).mpr (Or.inl h))
    · exact Or.inr h

/-! ### Occupancy-set lemmas -/

theorem mem_intRange {a b x : Int} : x ∈ intRange a b ↔ a ≤ x ∧ x ≤ b := by
  simp only [intRange, List.mem_map, List.mem_range, Int.ofNat_eq_natCast]
  constructor
  · rintro ⟨i, hi, rfl⟩
    omega
  · rintro ⟨h1, h2⟩
    refine ⟨(x - a).toNat, ?_, ?_⟩
    · omega
    · omega

theorem mem_addCell {occ : List Cell} {c x : Cell} :
    x ∈ addCell occ c ↔ x ∈ occ ∨ x = c := by
  unfold addCell
  split
  · rename_i h
    constructor
    · exact Or.inl
    · rintro (hx | rfl)
      · exact hx
      · exact h
  · simp

theorem addCell_nodup {occ : List Cell} {c : Cell} (h : occ.Nodup) :
    (addCell occ c).Nodup := by
  unfold addCell
  split
  · exact h
  · rename_i hc
    simp only [List.nodup_append, List.nodup_singleton, true_and]
    exact ⟨h, by simpa [List.disjoint_singleton] using hc⟩

theorem mem_foldl_addCell {α : Type} (f : α → Cell) (l : List α) :
    ∀ (o : List Cell) (x : Cell),
      x ∈ l.foldl (fun occ a => addCell occ (f a)) o ↔ x ∈ o ∨ ∃ a ∈ l, x = f a := by
  induction l with
  | nil => simp
  | cons a rest ih =>
    intro o x
    simp only [List.foldl_cons]
    rw [ih, mem_addCell]
    simp only [List.mem_cons]
    constructor
    · rintro ((h | h) | ⟨b, hb, rfl⟩)
      · exact Or.inl h
      · exact Or.inr ⟨a, Or.inl rfl, h⟩
      · exact Or.inr ⟨b, Or.inr hb, rfl⟩
    · rintro (h | ⟨b, hb | hb, rfl⟩)
      · exact Or.inl (Or.inl h)
      · subst hb; exact Or.inl (Or.inr rfl)
      · exact Or.inr ⟨b, hb, rfl⟩

theorem nodup_foldl_addCell {α : Type} (f : α → Cell) (l : List α) :
    ∀ (o : List Cell), o.Nodup →
      (l.foldl (fun occ a => addCell occ (f a)) o).Nodup := by
  induction l with
  | nil => intro o h; exact h
  | cons a rest ih =>
    intro o h
    simp only [List.foldl_cons]
    exact ih _ (addCell_nodup h)

theorem mem_meetingsFold {meetings : List Meeting} {week : Int} :
    ∀ (o : List Cell) (x : Cell),
      x ∈ meetings.foldl (fun occ m =>
          if m.occursOnWeek week = true then
            (intRange m.start_period m.end_period).foldl
              (fun occ2 p => addCell occ2 (week, m.weekday, p)) occ
          else occ) o ↔
        x ∈ o ∨ ∃ m ∈ meetings, m.occursOnWeek week = true ∧
          ∃ p ∈ intRange m.start_period m.end_period, x = (week, m.weekday, p) := by
  induction meetings with
  | nil => simp
  | cons m rest ih =>
    intro o x
    simp only [List.foldl_cons]
    rw [ih]
    by_cases hm : m.occursOnWeek week = true
    · rw [if_pos hm, mem_foldl_addCell]
      simp only [List.mem_cons]
      constructor
      · rintro ((h | ⟨p, hp, rfl⟩) | ⟨m2, hm2, ho, p, hp, rfl⟩)
        · exact Or.inl h
        · exact Or.inr ⟨m, Or.inl rfl, hm, p, hp, rfl⟩
        · exact Or.inr ⟨m2, Or.inr hm2, ho, p, hp, rfl⟩
      · rintro (h | ⟨m2, hm2 | hm2, ho, p, hp, rfl⟩)
        · exact Or.inl (Or.inl h)
        · subst hm2; exact Or.inl (Or.inr ⟨p, hp, rfl⟩)
        · exact Or.inr ⟨m2, hm2, ho, p, hp, rfl⟩
    · rw [if_neg hm]
      simp only [List.mem_cons]
      constructor
      · rintro (h | ⟨m2, hm2, ho, p, hp, rfl⟩)
        · exact Or.inl h
        · exact Or.inr ⟨m2, Or.inr hm2, ho, p, hp, rfl⟩
      · rintro (h | ⟨m2, hm2 | hm2, ho, p, hp, rfl⟩)
        · exact Or.inl h
        · subst hm2; exact absurd ho hm
        · exact Or.inr ⟨m2, hm2, ho, p, hp, rfl⟩

theorem mem_buildOccupied {c : Course} {x : Cell} :
    x ∈ buildOccupiedCellsForCourse c ↔
      ∃ w ∈ intRange WEEK_MIN WEEK_MAX, ∃ m ∈ c.meetings,
        m.occursOnWeek w = true ∧
        ∃ p ∈ intRange m.start_period m.end_period, x = (w, m.weekday, p) := by
  unfold buildOccupiedCellsForCourse
  have hgen : ∀ (weeks : List Int) (o : List Cell),
      x ∈ weeks.foldl (fun occ week =>
          c.meetings.foldl (fun occ2 m =>
            if m.occursOnWeek week = true then
              (intRange m.start_period m.end_period).foldl
                (fun occ3 p => addCell occ3 (week, m.weekday, p)) occ2
            else occ2) occ) o ↔
        x ∈ o ∨ ∃ w ∈ weeks, ∃ m ∈ c.meetings, m.occursOnWeek w = true ∧
          ∃ p ∈ intRange m.start_period m.end_period, x = (w, m.weekday, p) := by
    intro weeks
    induction weeks with
    | nil => simp
    | cons w rest ih =>
      intro o
      simp only [List.foldl_cons]
      rw [ih, mem_meetingsFold]
      simp only [List.mem_cons]
      constructor
      · rintro ((h | h) | ⟨w2, hw2, h⟩)
        · exact Or.inl h
        · exact Or.inr ⟨w, Or.inl rfl, h⟩
        · exact Or.inr ⟨w2, Or.inr hw2, h⟩
      · rintro (h | ⟨w2, hw2 | hw2, h⟩)
        · exact Or.inl (Or.inl h)
        · subst hw2; exact Or.inl (Or.inr h)
        · exact Or.inr ⟨w2, hw2, h⟩
  rw [hgen]
  simp

theorem buildOccupied_nodup (c : Course) :
    (buildOccupiedCellsForCourse c).Nodup := by
  unfold buildOccupiedCellsForCourse
  have hgen : ∀ (weeks : List Int) (o : List Cell), o.Nodup →
      (weeks.foldl (fun occ week =>
          c.meetings.foldl (fun occ2 m =>
            if m.occursOnWeek week = true then
              (intRange m.start_period m.end_period).foldl
                (fun occ3 p => addCell occ3 (week, m.weekday, p)) occ2
            else occ2) occ) o).Nodup := by
    intro weeks
    induction weeks with
    | nil => intro o h; exact h
    | cons w rest ih =>
      intro o h
      simp only [List.foldl_cons]
      refine ih _ ?_
      have hmeet : ∀ (ms : List Meeting) (o2 : List Cell), o2.Nodup →
          (ms.foldl (fun occ2 m =>
            if m.occursOnWeek w = true then
              (intRange m.start_period m.end_period).foldl
                (fun occ3 p => addCell occ3 (w, m.weekday, p)) occ2
            else occ2) o2).Nodup := by
        intro ms
        induction ms with
        | nil => intro o2 h2; exact h2
        | cons m rest2 ih2 =>
          intro o2 h2
          simp only [List.foldl_cons]
          refine ih2 _ ?_
          split
          · exact nodup_foldl_addCell _ _ _ h2
          · exact h2
      exact hmeet c.meetings o h
  exact hgen _ _ List.nodup_nil

/-! ### Claims C8, C10, C9 -/

/-- C8: the conflict check reports a conflict exactly when some occupied
cell of a candidate is already claimed by the selected set or by an earlier
candidate of the batch (walking candidates in order); in particular a
selected course and a proposed course sharing one cell always conflict, and
two courses with disjoint period ranges never conflict. -/
theorem conflict_check_spec :
    (∀ (sel : List UID) (occ : UID → List Cell) (uids : List UID),
      (∀ v, (occ v).Nodup) →
      ((findConflictBetween sel occ uids).isSome = true ↔
        ∃ pre u post, uids = pre ++ u :: post ∧
          ∃ c ∈ occ u, ((∃ v ∈ sel, c ∈ occ v) ∨ ∃ v ∈ pre, c ∈ occ v)))
    ∧ (∀ (occ : UID → List Cell) (u1 u2 : UID) (cell : Cell),
      (∀ v, (occ v).Nodup) → cell ∈ occ u1 → cell ∈ occ u2 →
      (findConflictBetween [u1] occ [u2]).isSome = true)
    ∧ (∀ (c1 c2 : Course) (u1 u2 : UID), u1 ≠ u2 →
      (∀ m1 ∈ c1.meetings, ∀ m2 ∈ c2.meetings,
        m1.end_period < m2.start_period ∨ m2.end_period < m1.start_period) →
      findConflictBetween [u1]
        (fun v => if v = u1 then buildOccupiedCellsForCourse c1
                  else buildOccupiedCellsForCourse c2) [u2] = none) := by
  refine ⟨fun sel occ uids hnd => findConflict_isSome sel occ uids hnd, ?_, ?_⟩
  · intro occ u1 u2 cell hnd h1 h2
    rw [findConflict_isSome [u1] occ [u2] hnd]
    exact ⟨[], u2, [], rfl, cell, h2, Or.inl ⟨u1, List.mem_cons_self _ _, h1⟩⟩
  · intro c1 c2 u1 u2 hne hd
    set occF : UID → List Cell := fun v =>
      if v = u1 then buildOccupiedCellsForCourse c1
      else buildOccupiedCellsForCourse c2 with hoccF
    have hnd : ∀ v, (occF v).Nodup := by
      intro v
      rw [hoccF]
      dsimp only
      split <;> exact buildOccupied_nodup _
    rw [← Option.not_isSome_iff_eq_none]
    intro hsome
    rw [findConflict_isSome [u1] occF [u2] hnd] at hsome
    obtain ⟨pre, u, post, heq, cell, hcm, hclaim⟩ := hsome
    have hpre : pre = [] ∧ u = u2 ∧ post = [] := by
      cases pre with
      | nil =>
        simp only [List.nil_append, List.cons.injEq] at heq
        exact ⟨rfl, heq.1.symm, heq.2.symm⟩
      | cons a l =>
        exfalso
        simp only [List.cons_append, List.cons.injEq] at heq
        exact absurd heq.2.symm (by simp)
    obtain ⟨rfl, hu, rfl⟩ := hpre
    rw [hu] at hcm
    have hcell2 : cell ∈ buildOccupiedCellsForCourse c2 := by
      have hocc2 : occF u2 = buildOccupiedCellsForCourse c2 := by
        rw [hoccF]
        dsimp only
        rw [if_neg hne.symm]
      rwa [hocc2] at hcm
    have hcell1 : cell ∈ buildOccupiedCellsForCourse c1 := by
      rcases hclaim with ⟨v, hv, hcv⟩ | ⟨v, hv, hcv⟩
      · rcases List.mem_cons.mp hv with rfl | hv2
        · have hocc1 : occF v = buildOccupiedCellsForCourse c1 := by
            rw [hoccF]
            dsimp only
            rw [if_pos rfl]
          rwa [hocc1] at hcv
        · simp at hv2
      · simp at hv
    obtain ⟨w1, -, m1, hm1, -, p1, hp1, hx1⟩ := mem_buildOccupied.mp hcell1
    obtain ⟨w2, -, m2, hm2, -, p2, hp2, hx2⟩ := mem_buildOccupied.mp hcell2
    rw [hx1] at hx2
    have hpp : p1 = p2 := congrArg (fun t => t.2.2) hx2
    rw [mem_intRange] at hp1 hp2
    rcases hd m1 hm1 m2 hm2 with h | h <;> omega

/-- Witness: two courses sharing the cell (week 5, Wednesday, period 4) —
one selected, one proposed — are reported as conflicting. -/
theorem conflict_check_spec_check :
    (findConflictBetween [("a", "1")]
      (fun _ => [((5 : Int), (3 : Int), (4 : Int))]) [("b", "1")]).isSome = true :=
  conflict_check_spec.2.1 (fun _ => [((5 : Int), (3 : Int), (4 : Int))])
    ("a", "1") ("b", "1") ((5 : Int), (3 : Int), (4 : Int))
    (fun _ => by simp) (by simp) (by simp)

/-- C10: a candidate that is already selected and occupies at least one cell
always collides — with its own cells registered from the selected set — so
re-adding a selected course with meetings is impossible. -/
theorem selected_candidate_always_conflicts (sel : List UID)
    (occ : UID → List Cell) (uids : List UID) (u : UID)
    (hnd : ∀ v, (occ v).Nodup) (hsel : u ∈ sel) (hcand : u ∈ uids)
    (hne : occ u ≠ []) :
    (findConflictBetween sel occ uids).isSome = true := by
  rw [findConflict_isSome sel occ uids hnd]
  obtain ⟨pre, post, rfl⟩ := List.append_of_mem hcand
  obtain ⟨cell, hcm⟩ : ∃ cell, cell ∈ occ u := by
    cases h : occ u with
    | nil => exact absurd h hne
    | cons a l => exact ⟨a, List.mem_cons_self _ _⟩
  exact ⟨pre, u, post, rfl, cell, hcm, Or.inl ⟨u, hsel, hcm⟩⟩

/-- Witness: an already-selected course with one occupied cell conflicts
with itself when proposed again. -/
theorem selected_candidate_always_conflicts_check :
    (findConflictBetween [("a", "1")]
      (fun _ => [((5 : Int), (3 : Int), (4 : Int))]) [("a", "1")]).isSome = true :=
  selected_candidate_always_conflicts [("a", "1")]
    (fun _ => [((5 : Int), (3 : Int), (4 : Int))]) [("a", "1")] ("a", "1")
    (fun _ => by simp) (by simp) (by simp) (by simp)

theorem mem_addUID {sel : List UID} {u v : UID} :
    v ∈ addUID sel u ↔ v ∈ sel ∨ v = u := by
  unfold addUID
  split
  · rename_i h
    constructor
    · exact Or.inl
    · rintro (hx | rfl)
      · exact hx
      · exact h
  · simp

theorem mem_foldl_addUID (l : List UID) :
    ∀ (sel : List UID) (v : UID), v ∈ l.foldl addUID sel ↔ v ∈ sel ∨ v ∈ l := by
  induction l with
  | nil => simp
  | cons u rest ih =>
    intro sel v
    simp only [List.foldl_cons]
    rw [ih, mem_addUID]
    simp only [List.mem_cons]
    tauto

/-- C9: the batch add is double-gated and atomic. An empty batch is a no-op;
a conflict rejects the whole batch with the selection unchanged; passing the
conflict gate but exceeding `limit + 1e-9` rejects the whole batch reporting
(current total, batch total, limit) with the selection unchanged; passing
both gates adds every candidate (and only the candidates) to the selection. -/
theorem add_batch_gates :
    (∀ (sel : List UID) (occ : UID → List Cell) (credits : UID → ℚ) (limit : ℚ),
      addSelectedCourses sel occ credits limit [] = ⟨AddResult.emptySelection, sel⟩)
    ∧ (∀ (sel : List UID) (occ : UID → List Cell) (credits : UID → ℚ) (limit : ℚ)
        (uids : List UID) (info : ConflictInfo),
      findConflictBetween sel occ uids = some info →
      addSelectedCourses sel occ credits limit uids = ⟨AddResult.conflict info, sel⟩)
    ∧ (∀ (sel : List UID) (occ : UID → List Cell) (credits : UID → ℚ) (limit : ℚ)
        (uids : List UID),
      uids ≠ [] →
      findConflictBetween sel occ uids = none →
      creditSum credits sel + creditSum credits uids > limit + creditTol →
      addSelectedCourses sel occ credits limit uids =
        ⟨AddResult.creditExceeded (creditSum credits sel) (creditSum credits uids)
          limit, sel⟩)
    ∧ (∀ (sel : List UID) (occ : UID → List Cell) (credits : UID → ℚ) (limit : ℚ)
        (uids : List UID),
      uids ≠ [] →
      findConflictBetween sel occ uids = none →
      creditSum credits sel + creditSum credits uids ≤ limit + creditTol →
      (addSelectedCourses sel occ credits limit uids).result = AddResult.added ∧
      ∀ v, v ∈ (addSelectedCourses sel occ credits limit uids).selected ↔
        v ∈ sel ∨ v ∈ uids) := by
  refine ⟨?_, ?_, ?_, ?_⟩
  · intro sel occ credits limit
    rfl
  · intro sel occ credits limit uids info h
    cases uids with
    | nil =>
      exfalso
      rw [show findConflictBetween sel occ [] = none from rfl] at h
      cases h
    | cons u rest =>
      simp only [addSelectedCourses, List.isEmpty_cons, Bool.false_eq_true,
        if_false, h]
  · intro sel occ credits limit uids hne hconf hlim
    cases uids with
    | nil => exact absurd rfl hne
    | cons u rest =>
      simp only [addSelectedCourses, List.isEmpty_cons, Bool.false_eq_true,
        if_false, hconf]
      rw [if_pos hlim]
  · intro sel occ credits limit uids hne hconf hlim
    cases uids with
    | nil => exact absurd rfl hne
    | cons u rest =>
      have hstep :
          addSelectedCourses sel occ credits limit (u :: rest) =
            ⟨AddResult.added, (u :: rest).foldl addUID sel⟩ := by
        simp only [addSelectedCourses, List.isEmpty_cons, Bool.false_eq_true,
          if_false, hconf]
        rw [if_neg (not_lt.mpr hlim)]
      rw [hstep]
      exact ⟨rfl, fun v => mem_foldl_addUID _ sel v⟩

/-- Witness: an unconflicted, within-limit batch of one course is admitted
and the course lands in the selection. -/
theorem add_batch_gates_check :
    (addSelectedCourses [] (fun _ => []) (fun _ => 3) 25 [("a", "1")]).result =
      AddResult.added ∧
    ∀ v, v ∈ (addSelectedCourses [] (fun _ => []) (fun _ => 3) 25
        [("a", "1")]).selected ↔
      v ∈ ([] : List UID) ∨ v ∈ [((("a" : String), ("1" : String)) : UID)] :=
  add_batch_gates.2.2.2 [] (fun _ => []) (fun _ => 3) 25 [("a", "1")]
    (by simp) (by rfl) (by norm_num [creditSum, creditTol])

end PKU
